import Mathlib

/-!
# Verification of the Huffman codec (`compression` package, parallel variant)

Shallow embedding of the compression core: the priority-queue codebook
builder, the header codec, the bit-packing body encoder, the chunk splitter,
the container framer and the segment decoder.  Go slices of nodes become
`List node`, `nil` pointers become `node.nil`, panics and returned errors
both become `none`, machine integers become `Nat`/`Int` with explicit
`% 2^w` where Go would truncate.  Each definition mirrors one Go function
and keeps its name where Lean allows.
-/

namespace Compression

/-- Mirrors `lookupItem` (char uint32, freq int, code string, bits int).
The code string only ever holds the characters 0 and 1, so it is kept as a
`List Char`; `char` carries the uint32 scalar value as a `Nat`. -/
structure lookupItem where
  char : Nat
  freq : Int
  code : List Char
  bits : Nat
deriving DecidableEq, Repr

/-- Mirrors `node` (`value *lookupItem; left, right *node`).  A `nil`
pointer is the `nil` constructor; a `&node{...}` allocation is `mk`. -/
inductive node where
  | nil : node
  | mk (value : Option lookupItem) (left : node) (right : node)
deriving DecidableEq, Repr

instance : Inhabited node := ⟨node.nil⟩

/-- Mirrors `const CHUNKS_COUNT int = 3`. -/
def CHUNKS_COUNT : Nat := 3

/-- Reads the `left` field of a non-nil node (`nil` for the nil pointer). -/
def node.leftChild : node → node
  | .nil => .nil
  | .mk _ l _ => l

/-- Reads the `right` field of a non-nil node (`nil` for the nil pointer). -/
def node.rightChild : node → node
  | .nil => .nil
  | .mk _ _ r => r

/-- Reads the `value` field of a non-nil node (`none` for the nil pointer). -/
def node.value? : node → Option lookupItem
  | .nil => none
  | .mk v _ _ => v

/-- Mirrors `if hn.left == nil { hn.left = &node{} }`: replaces a nil child
pointer by a freshly allocated empty node. -/
def orEmpty : node → node
  | .nil => node.mk none .nil .nil
  | t => t

/-- Mirrors `(*node).addNode(char, code uint32, bits uint8)`: walks the bits
of `code` from bit `bits-1` down to bit `0`, descending left on `0` and
right on `1`, creating empty nodes as needed, and at the end stores a value
carrying only `char` (other fields are Go zero values).  The receiver is
never the nil pointer in the source (the nil case is unreachable there;
Go would panic). -/
def addNode : node → Nat → Nat → Nat → node
  | .nil, _, _, _ => .nil
  | .mk _ l r, char, _, 0 =>
      .mk (some { char := char, freq := 0, code := [], bits := 0 }) l r
  | .mk v l r, char, code, bits + 1 =>
      if (code >>> bits) &&& 1 = 0 then
        .mk v (addNode (orEmpty l) char code bits) r
      else
        .mk v l (addNode (orEmpty r) char code bits)

/-- One invocation of the closure returned by `(*node).walker()`: move the
cursor to the chosen child, then test `t.value != nil`.  Moving into a nil
pointer dereferences `t.value` on nil, a panic, modelled as `none`.  On
success it returns the new cursor and `some char` when the new node carries
a value (a decoded symbol). -/
def walkStep (t : node) (direction : Nat) : Option (node × Option Nat) :=
  match t with
  | .nil => none
  | .mk _ l r =>
    let tn := if direction = 0 then l else r
    match tn with
    | .nil => none
    | .mk v _ _ => some (tn, v.map (fun it => it.char))

/-- Mirrors `buildHuffmanTree(root *node, code string, bits int)`: assigns
`code`/`bits` to every node whose `char` field is non-zero (the sentinel
leaf test), recursing with `code+"0"` left and `code+"1"` right otherwise.
The source dereferences `root.value`; a nil value is a panic (`none`),
unreachable for trees built by `Compress`. -/
def buildHuffmanTree : node → List Char → Nat → Option node
  | .nil, _, _ => some .nil
  | .mk none _ _, _, _ => none
  | .mk (some item) l r, code, bits =>
    if item.char ≠ 0 then
      some (.mk (some { item with code := code, bits := bits }) l r)
    else do
      let l' ← buildHuffmanTree l (code ++ ['0']) (bits + 1)
      let r' ← buildHuffmanTree r (code ++ ['1']) (bits + 1)
      some (.mk (some item) l' r')

/-- Mirrors `binary.LittleEndian.PutUint32` on a 4-byte slice (the helper
`convertToBin`); the `% 256` projections also realise the uint32
truncation of the argument. -/
def putUint32 (value : Nat) : List Nat :=
  [value % 256, value / 256 % 256, value / 65536 % 256, value / 16777216 % 256]

/-- Mirrors `convertToBin(value uint32) []byte`. -/
def convertToBin (value : Nat) : List Nat := putUint32 value

/-- Mirrors `binary.LittleEndian.PutUint16` on a 2-byte slice, including the
uint16 truncation of the argument. -/
def putUint16 (value : Nat) : List Nat := [value % 256, value / 256 % 256]

/-- The digit-accumulation core of `strconv.ParseUint(value, 2, 32)`:
`none` on any character other than 0 or 1. -/
def binDigits (cs : List Char) : Option Nat :=
  cs.foldlM
    (fun acc c =>
      if c = '0' then some (acc * 2)
      else if c = '1' then some (acc * 2 + 1)
      else none)
    0

/-- Mirrors `convertCodeToBin(value string)`: `strconv.ParseUint(value, 2, 32)`
(error on the empty string, on a non-binary digit, or on a value outside
uint32 range) followed by `PutUint32`. -/
def convertCodeToBin (value : List Char) : Option (List Nat) :=
  if value = [] then none
  else
    match binDigits value with
    | none => none
    | some v => if v < 4294967296 then some (convertToBin v) else none

/-- Mirrors `buildHeaderRecursive(root *node, header *bytes.Buffer)`: for a
node with non-zero `char` append the 9-byte record
`char (u32 LE) · code (u32 LE) · bits (u8)`, then recurse left and right.
Dereferencing a nil `value` is a panic (`none`), unreachable for codebook
trees. -/
def buildHeaderRecursive : node → Option (List Nat)
  | .nil => some []
  | .mk none _ _ => none
  | .mk (some item) l r => do
    let own ←
      if item.char ≠ 0 then do
        let huffmanCode ← convertCodeToBin item.code
        pure (convertToBin item.char ++ huffmanCode ++ [item.bits % 256])
      else pure []
    let lh ← buildHeaderRecursive l
    let rh ← buildHeaderRecursive r
    pure (own ++ lh ++ rh)

/-- Mirrors `buildHeader(root *node)`. -/
def buildHeader (root : node) : Option (List Nat) := buildHeaderRecursive root

/-- The loop of `splitChunks` for a fixed chunk size: repeatedly slice off
`body[i : i+k]`.  The first argument is recursion fuel (each iteration
consumes at least one element, so the callers' `body.length` is enough); a
chunk size of `0` only arises for an empty body (where the Go loop body
never runs), so the `0, _ :: _` and fuel-exhaustion cases are unreachable. -/
def chunksOfAux {α : Type} : Nat → Nat → List α → List (List α)
  | _, _, [] => []
  | _, 0, _ :: _ => []
  | 0, _ + 1, _ :: _ => []
  | fuel + 1, k + 1, x :: xs => (x :: xs.take k) :: chunksOfAux fuel (k + 1) (xs.drop k)

/-- Mirrors `splitChunks(body []string, chunks_count int)`:
`chunkSize := (len(body) + chunks_count - 1) / chunks_count`, then slices of
that size.  Body lines are lists of Unicode scalar values. -/
def splitChunks (body : List (List Nat)) (chunks_count : Nat) : List (List (List Nat)) :=
  chunksOfAux body.length ((body.length + chunks_count - 1) / chunks_count) body

/-- One iteration of the bit-packing inner loop of `buildBody`: shift the
one-byte accumulator (`% 256` is the byte truncation), OR in the bit, and
flush a completed byte.  The state is `(currentByte, bitCount, output)`. -/
def pushBit (st : Nat × Nat × List Nat) (bit : Char) : Nat × Nat × List Nat :=
  let cur := st.1 * 2 % 256
  let cur := if bit = '1' then cur ||| 1 else cur
  let cnt := st.2.1 + 1
  if cnt = 8 then (0, 0, st.2.2 ++ [cur]) else (cur, cnt, st.2.2)

/-- The per-scalar step of `buildBody`: `item := pt[uint32(r)]` followed by
`range item.code`.  A missing prefix-table entry makes `item` a nil pointer
and `item.code` a panic, modelled as `none`. -/
def encodeRune (pt : Nat → Option lookupItem) (st : Nat × Nat × List Nat) (r : Nat) :
    Option (Nat × Nat × List Nat) :=
  (pt r).map (fun item => item.code.foldl pushBit st)

/-- Mirrors `buildBody(pt prefixTable, bodyContent []string)`: bit-pack the
codes of every scalar of every line, then flush the remaining bits padded
with zeros on the right, returning the bytes and the pad count. -/
def buildBody (pt : Nat → Option lookupItem) (bodyContent : List (List Nat)) :
    Option (List Nat × Nat) := do
  let st ← bodyContent.foldlM (fun st line => line.foldlM (encodeRune pt) st) (0, 0, [])
  if st.2.1 > 0 then
    let paddedZeros := 8 - st.2.1
    pure (st.2.2 ++ [st.1 * 2 ^ paddedZeros % 256], paddedZeros)
  else
    pure (st.2.2, 0)

/-- Mirrors `pq[i].value.freq` (the priority field read by the heap's
`Less`).  Every queue element carries a value, so the nil default is
unreachable (Go would panic). -/
def freqOf : node → Int
  | .mk (some it) _ _ => it.freq
  | _ => 0

/-- Mirrors `priorityQueue.Less(i, j)`: `pq[i].value.freq > pq[j].value.freq`.
Frequencies are stored negated, so this yields a min-heap on counts. -/
def pqLess (pq : List node) (i j : Nat) : Bool :=
  freqOf (pq.getD i .nil) > freqOf (pq.getD j .nil)

/-- Mirrors `priorityQueue.Swap(i, j)`; the guard keeps the operation a
permutation (Go would panic out of range, which never happens in the
`container/heap` algorithms). -/
def pqSwap (pq : List node) (i j : Nat) : List node :=
  if i < pq.length ∧ j < pq.length then
    (pq.set i (pq.getD j .nil)).set j (pq.getD i .nil)
  else pq

/-- Mirrors `container/heap`'s `down(h, i, n)`.  The loop index strictly
increases and is bounded by `n`, so a fuel of `n` (the callers pass the
queue length) is enough; `j1 < 0` cannot occur over `Nat`. -/
def heapDown : Nat → List node → Nat → Nat → List node
  | 0, pq, _, _ => pq
  | fuel + 1, pq, i, n =>
    let j1 := 2 * i + 1
    if j1 ≥ n then pq
    else
      let j := if j1 + 1 < n ∧ pqLess pq (j1 + 1) j1 then j1 + 1 else j1
      if pqLess pq j i then heapDown fuel (pqSwap pq i j) j n else pq

/-- Mirrors `container/heap`'s `up(h, j)`; Go's `(j-1)/2` truncates toward
zero, which agrees with `Nat` subtraction and division at `j = 0`. -/
def heapUp : Nat → List node → Nat → List node
  | 0, pq, _ => pq
  | fuel + 1, pq, j =>
    let i := (j - 1) / 2
    if i = j ∨ ¬ pqLess pq j i then pq
    else heapUp fuel (pqSwap pq i j) i

/-- The countdown loop of `heap.Init`: `for i := n/2 - 1; i >= 0; i--`. -/
def heapInitAux : Nat → List node → List node
  | 0, pq => pq
  | i + 1, pq => heapInitAux i (heapDown pq.length pq i pq.length)

/-- Mirrors `heap.Init(&pq)`. -/
def heapInit (pq : List node) : List node := heapInitAux (pq.length / 2) pq

/-- Mirrors `heap.Push(&pq, x)`: append, then sift up from the last index. -/
def heapPush (pq : List node) (x : node) : List node :=
  let pq := pq ++ [x]
  heapUp pq.length pq (pq.length - 1)

/-- Mirrors `heap.Pop(&pq)`: swap the root with the last element, sift the
root down over the shortened prefix, and detach the last element.  Called
only on non-empty queues (Go would panic). -/
def heapPop (pq : List node) : node × List node :=
  let n := pq.length - 1
  let pq1 := pqSwap pq 0 n
  let pq2 := heapDown pq1.length pq1 0 n
  (pq2.getD n .nil, pq2.dropLast)

/-- The body of the codebook merge loop in `Compress` (lines 273-288 of the
parallel `huffman.go`): combine two popped nodes `n1` (popped first) and
`n2` into an internal node whose value carries only the summed frequency;
`if n1.value.freq > n2.value.freq` then `right = n1, left = n2`, else
`right = n2, left = n1`. -/
def mergeStep (n1 n2 : node) : node :=
  let newvalue : lookupItem := { char := 0, freq := freqOf n1 + freqOf n2, code := [], bits := 0 }
  if freqOf n1 > freqOf n2 then node.mk (some newvalue) n2 n1
  else node.mk (some newvalue) n1 n2

/-- Mirrors `for pq.Len() > 1 { ... }`: pop twice, merge, push.  Each
iteration shrinks the queue by one, so fuel equal to the initial length
suffices. -/
def mergeLoop : Nat → List node → List node
  | 0, pq => pq
  | fuel + 1, pq =>
    if pq.length > 1 then
      let p1 := heapPop pq
      let p2 := heapPop p1.2
      mergeLoop fuel (heapPush p2.2 (mergeStep p1.1 p2.1))
    else pq

/-- Mirrors the queue-filling loop of `Compress`: one singleton leaf per
frequency-map entry, in the (nondeterministic) map iteration order given by
`storeOrder`, with the count stored negated (`freq: -v`). -/
def initialQueue (storeOrder : List (Nat × Nat)) : List node :=
  storeOrder.map
    (fun kv => node.mk (some { char := kv.1, freq := -(kv.2 : Int), code := [], bits := 0 })
      .nil .nil)

/-- The queue left after `heap.Init` and the merge loop of `Compress` ran on
the frequency-map entries (in iteration order `storeOrder`): one merged tree
when the map was non-empty. -/
def mergedQueue (storeOrder : List (Nat × Nat)) : List node :=
  let pq := heapInit (initialQueue storeOrder)
  mergeLoop pq.length pq

/-- The codebook-building phase of `Compress`: `heap.Init`, the merge loop,
`pq[0]` (a panic when the queue is empty, i.e. for an empty frequency map),
then `buildHuffmanTree(pq[0], "", 0)`. -/
def buildCodebookTree (storeOrder : List (Nat × Nat)) : Option node := do
  let root ← (mergedQueue storeOrder).get? 0
  buildHuffmanTree root [] 0

/-- Pre-order list of the `(char, code, bits)` triples stored at nodes with
non-zero `char` — the contents `buildHeaderRecursive` serialises, and the
view of the prefix table produced by the shared-pointer mutation of
`buildHuffmanTree`. -/
def treeRecords : node → List (Nat × List Char × Nat)
  | .nil => []
  | .mk none l r => treeRecords l ++ treeRecords r
  | .mk (some item) l r =>
    if item.char ≠ 0 then (item.char, item.code, item.bits) :: (treeRecords l ++ treeRecords r)
    else treeRecords l ++ treeRecords r

/-- The prefix table after `buildHuffmanTree` ran: `pt[k]` was inserted while
filling the queue (freq `-v`, empty code) and the tree leaves share those
`lookupItem` pointers, so an entry ends up with the code and bit count its
char received in the tree, or with the Go zero values if the tree never
assigned it one (the `char = 0` sentinel case). -/
def ptFinal (storeOrder : List (Nat × Nat)) (t : node) : Nat → Option lookupItem :=
  fun c =>
    match storeOrder.lookup c with
    | none => none
    | some v =>
      match (treeRecords t).lookup c with
      | some cb => some { char := c, freq := -(v : Int), code := cb.1, bits := cb.2 }
      | none => some { char := c, freq := -(v : Int), code := [], bits := 0 }

/-- Mirrors the `scanner.ReadString('\n')` loop of `Compress`: each returned
line includes its trailing newline (scalar 10); hitting EOF returns the
remainder (possibly empty) as a final line. -/
def readLines : List Nat → List (List Nat)
  | [] => [[]]
  | c :: cs =>
    if c = 10 then [c] :: readLines cs
    else
      match readLines cs with
      | l :: ls => (c :: l) :: ls
      | [] => [[c]]

/-- Mirrors `Compress` (minus file I/O) with the frequency-map iteration
order passed explicitly: empty input returns the empty buffer; otherwise
build the codebook tree, serialise the header behind its u16 LE length,
split the body lines into `CHUNKS_COUNT` chunks, encode `chunks[idx]` for
`idx` in `0..CHUNKS_COUNT` (an out-of-range index is a panic, `none`), and
frame each segment as `pad (u8) · byte_length (u32 LE) · bytes`. -/
def CompressWithOrder (text : List Nat) (storeOrder : List (Nat × Nat)) :
    Option (List Nat) :=
  if text.isEmpty then some []
  else do
    let body := readLines text
    let t ← buildCodebookTree storeOrder
    let header ← buildHeader t
    let pt := ptFinal storeOrder t
    let chunks := splitChunks body CHUNKS_COUNT
    let segs ← (List.range CHUNKS_COUNT).mapM (fun idx => do
      let chunk ← chunks.get? idx
      buildBody pt chunk)
    pure (putUint16 header.length ++ header ++
      (segs.map (fun s => s.2 :: (putUint32 s.1.length ++ s.1))).flatten)

/-- The count of a scalar in the text: `store[uint32(c)] += 1`. -/
def countOcc (text : List Nat) (c : Nat) : Nat := text.count c

/-- The recursion of `dedupFirst`, fuelled by the list length (filtering
only shortens the tail, so the fuel never runs out). -/
def dedupFirstAux : Nat → List Nat → List Nat
  | _, [] => []
  | 0, _ :: _ => []
  | fuel + 1, c :: cs => c :: dedupFirstAux fuel (cs.filter (fun x => x ≠ c))

/-- First-occurrence order of the distinct scalars of the text (one concrete
instance of Go's randomised map iteration order). -/
def dedupFirst (l : List Nat) : List Nat := dedupFirstAux l.length l

/-- The frequency map of the text paired with a concrete iteration order. -/
def freqList (text : List Nat) : List (Nat × Nat) :=
  (dedupFirst text).map (fun c => (c, countOcc text c))

/-- Mirrors `Compress` with the first-occurrence iteration order. -/
def Compress (text : List Nat) : Option (List Nat) :=
  CompressWithOrder text (freqList text)

/-- The bit positions of one byte visited by the decoder's inner loop
`for i := 7; i >= endBit; i--`, as extracted bits `(c >> i) & 1`. -/
def bitsOfByte (c : Nat) (endBit : Nat) : List Nat :=
  ((List.range 8).reverse.filter (fun i => endBit ≤ i)).map (fun i => (c >>> i) &&& 1)

/-- The decoder's walk over the bit list of one byte: step the cursor; on a
decoded symbol append it and reset the cursor to the table root (a fresh
`walker()`); `none` is the nil-child panic inside `walkStep`. -/
def decodeByteBits (table : node) : List Nat → node → List Nat → Option (node × List Nat)
  | [], cursor, acc => some (cursor, acc)
  | b :: bs, cursor, acc =>
    match walkStep cursor b with
    | none => none
    | some (_, some v) => decodeByteBits table bs table (acc ++ [v])
    | some (t', none) => decodeByteBits table bs t' acc

/-- The byte loop of `decompressChunk`: the final byte stops at bit
`paddedZeros`, every other byte consumes all 8 bits. -/
def decompressChunkAux (table : node) (paddedZeros : Nat) :
    List Nat → node → List Nat → Option (node × List Nat)
  | [], cursor, acc => some (cursor, acc)
  | c :: rest, cursor, acc =>
    let endBit := if rest = [] then paddedZeros else 0
    match decodeByteBits table (bitsOfByte c endBit) cursor acc with
    | none => none
    | some ca => decompressChunkAux table paddedZeros rest ca.1 ca.2

/-- Mirrors `decompressChunk(paddedZeros int, chunk []byte, table *node)`:
walk the tree bit by bit and collect the decoded scalar values. -/
def decompressChunk (paddedZeros : Nat) (chunk : List Nat) (table : node) :
    Option (List Nat) :=
  (decompressChunkAux table paddedZeros chunk table []).map (fun ca => ca.2)

/-- Mirrors `binary.LittleEndian.Uint32` on a 4-byte slice. -/
def decodeLE32 (bs : List Nat) : Nat :=
  bs.getD 0 0 + 256 * bs.getD 1 0 + 65536 * bs.getD 2 0 + 16777216 * bs.getD 3 0

/-- The header-parsing loop of `Decompress` (parallel `huffman.go`, lines
415-423): consume 9-byte records `char (u32 LE) · code (u32 LE) · bits` and
insert each with `addNode`.  A trailing fragment shorter than 9 bytes makes
`headerBin[i:i+9]` panic (`none`). -/
def parseHeaderTreeAux : Nat → List Nat → node → Option node
  | _, [], t => some t
  | 0, _ :: _, _ => none
  | fuel + 1, b :: bs, t =>
    if 9 ≤ (b :: bs : List Nat).length then
      let sect := (b :: bs).take 9
      let char := decodeLE32 (sect.take 4)
      let code := decodeLE32 ((sect.drop 4).take 4)
      let bits := sect.getD 8 0
      parseHeaderTreeAux fuel ((b :: bs).drop 9) (addNode t char code bits)
    else none

/-- The header-parsing loop with fuel `headerBin.length` (each record
consumes nine bytes, so the fuel never runs out). -/
def parseHeaderTree (headerBin : List Nat) (t : node) : Option node :=
  parseHeaderTreeAux headerBin.length headerBin t

/-- Rebuilds the decoding tree from the raw header bytes starting from the
empty root `ht := node{}`. -/
def buildTreeFromHeader (headerBin : List Nat) : Option node :=
  parseHeaderTree headerBin (node.mk none .nil .nil)

/-- The per-symbol `(code, bit_length)` assignment a decoding tree realises
under the walker semantics: every node carrying a value emits its `char`
when the cursor reaches it, so it stands at the end of the bit path leading
to it (`0` = left, `1` = right). -/
def decAssign : node → List Char → List (Nat × List Char × Nat)
  | .nil, _ => []
  | .mk v l r, p =>
    (match v with
     | some it => [(it.char, p, p.length)]
     | none => []) ++ decAssign l (p ++ ['0']) ++ decAssign r (p ++ ['1'])

/-- The `(char, code, bits)` triples stored at the structural leaves of a
tree (childless nodes), regardless of the `char = 0` sentinel. -/
def leafValues : node → List (Nat × List Char × Nat)
  | .nil => []
  | .mk v .nil .nil =>
    (match v with
     | some it => [(it.char, it.code, it.bits)]
     | none => [])
  | .mk _ l r => leafValues l ++ leafValues r

/-- The sum of the code lengths of all scalars of the body under a prefix
table (the number of bits the body encoder should emit). -/
def totalCodeBits (pt : Nat → Option lookupItem) (body : List (List Nat)) : Nat :=
  (body.map (fun line =>
    (line.map (fun r => ((pt r).map (fun it => it.code.length)).getD 0)).sum)).sum

/-- Modelled from the spec's container grammar (§3, §6): after `pad_zeros`
comes a u32 LE `byte_length` and exactly that many body bytes, segment
after segment until the end of the container, nothing in between or after. -/
def segmentsOkAux : Nat → List Nat → Bool
  | _, [] => true
  | 0, _ :: _ => false
  | fuel + 1, _ :: rest =>
    if 4 ≤ rest.length then
      let blen := decodeLE32 (rest.take 4)
      let body := rest.drop 4
      if blen ≤ body.length then segmentsOkAux fuel (body.drop blen) else false
    else false

/-- The segment grammar with fuel equal to the byte count (each frame
consumes at least five bytes, so the fuel never runs out). -/
def segmentsOk (l : List Nat) : Bool := segmentsOkAux l.length l

/-- Modelled from the spec's container grammar (§3, §6): a u16 LE
`header_len`, `header_len` header bytes, then the segment frames. -/
def containerLayoutOk : List Nat → Bool
  | b0 :: b1 :: rest =>
    let headerLen := b0 + 256 * b1
    headerLen ≤ rest.length && segmentsOk (rest.drop headerLen)
  | _ => false

/-! ### Specification-side notions for the header round-trip -/

/-- The shape of a tree leaving the merge loop: every node carries a value,
leaves (childless nodes) have a non-zero uint32 `char`, internal nodes have
two children and the sentinel `char = 0`. -/
inductive CodebookTree : node → Prop where
  | leaf (it : lookupItem) : it.char ≠ 0 → it.char < 4294967296 →
      CodebookTree (node.mk (some it) .nil .nil)
  | internal (it : lookupItem) (l r : node) : it.char = 0 →
      CodebookTree l → CodebookTree r → CodebookTree (node.mk (some it) l r)

/-- A codebook tree after `buildHuffmanTree` annotated it: every leaf under
path `p` stores `code = p` and `bits = p.length`. -/
inductive AnnTree : node → List Char → Prop where
  | leaf (it : lookupItem) (p : List Char) : it.char ≠ 0 → it.char < 4294967296 →
      it.code = p → it.bits = p.length →
      AnnTree (node.mk (some it) .nil .nil) p
  | internal (it : lookupItem) (l r : node) (p : List Char) : it.char = 0 →
      AnnTree l (p ++ ['0']) → AnnTree r (p ++ ['1']) →
      AnnTree (node.mk (some it) l r) p

/-- A code string over the characters 0 and 1. -/
def isBin (p : List Char) : Prop := ∀ c ∈ p, c = '0' ∨ c = '1'

/-- The numeric value of a binary code string (the total function under
`binDigits`). -/
def binVal (cs : List Char) : Nat :=
  cs.foldl (fun acc c => acc * 2 + (if c = '1' then 1 else 0)) 0

/-- The 9-byte header record of one leaf:
`char (u32 LE) · code value (u32 LE) · bits (u8)`. -/
def encode9 (rec : Nat × List Char × Nat) : List Nat :=
  convertToBin rec.1 ++ convertToBin (binVal rec.2.1) ++ [rec.2.2 % 256]

/-- Path-level view of `addNode`: walk the code characters instead of the
bits of the numeric code (0 = left, anything else = right). -/
def addPathC : node → Nat → List Char → node
  | .nil, _, _ => .nil
  | .mk _ l r, char, [] => .mk (some { char := char, freq := 0, code := [], bits := 0 }) l r
  | .mk v l r, char, c :: p =>
    if c = '0' then .mk v (addPathC (orEmpty l) char p) r
    else .mk v l (addPathC (orEmpty r) char p)

/-- The tree the header parser reconstructs: same shape, leaves keep only
their `char`, internal nodes carry no value (they are freshly allocated
`&node{}`). -/
def skeleton : node → node
  | .nil => .nil
  | .mk v .nil .nil =>
      .mk (some { char := (v.map (fun it => it.char)).getD 0, freq := 0, code := [], bits := 0 })
        .nil .nil
  | .mk _ l r => .mk none (skeleton l) (skeleton r)

/-- The `(char, path)` pairs of the structural leaves, with paths relative
to the given node (pre-order, left = 0, right = 1). -/
def leafPathsRel : node → List (Nat × List Char)
  | .nil => []
  | .mk v .nil .nil =>
      (match v with
       | some it => [(it.char, ([] : List Char))]
       | none => [])
  | .mk _ l r =>
      (leafPathsRel l).map (fun cq => (cq.1, '0' :: cq.2)) ++
      (leafPathsRel r).map (fun cq => (cq.1, '1' :: cq.2))

/-! ### Concrete instances used by counterexamples and witnesses -/

/-- The decoding tree for codes `97 ↦ 00`, `98 ↦ 01`, rebuilt by `addNode`
exactly as the header parser does. -/
def exTree : node := addNode (addNode (node.mk none .nil .nil) 97 0 2) 98 1 2

/-- A one-entry prefix table knowing only the scalar 97. -/
def ptOnlyA : Nat → Option lookupItem :=
  fun c => if c = 97 then some { char := 97, freq := -1, code := ['0'], bits := 1 } else none

/-- A frequency map containing the reserved scalar 0 (U+0000). -/
def cexOrder : List (Nat × Nat) := [(0, 1), (97, 2)]

/-- The codebook tree built from `cexOrder`. -/
def cexTree : node := (buildCodebookTree cexOrder).getD .nil

/-- The decoding tree parsed back from the serialised header of `cexTree`. -/
def cexRebuilt : node := ((buildHeader cexTree).bind buildTreeFromHeader).getD .nil

/-- A three-symbol frequency map with distinct counts and non-zero
scalars. -/
def C5ord : List (Nat × Nat) := [(97, 1), (98, 2), (99, 4)]

/-- The codebook tree built from `C5ord`. -/
def C5tree : node := (buildCodebookTree C5ord).getD .nil

/-- The text `ab\nca\nbc` (three lines, four scalars of frequency 2 each),
and two iteration orders of its frequency map. -/
def tieText : List Nat := [97, 98, 10, 99, 97, 10, 98, 99]

/-- One iteration order of the frequency map of `tieText`. -/
def ordA : List (Nat × Nat) := [(97, 2), (98, 2), (10, 2), (99, 2)]

/-- The reverse iteration order of the same frequency map. -/
def ordB : List (Nat × Nat) := [(99, 2), (10, 2), (98, 2), (97, 2)]

/-- The codebook tree `Compress` builds for `tieText` under `ordA`. -/
def C6tree : node := (buildCodebookTree ordA).getD .nil

/-- The header `Compress` serialises for `C6tree`. -/
def C6header : List Nat := (buildHeader C6tree).getD []

/-- The three framed segments `Compress` computes for `tieText`. -/
def C6segs : List (List Nat × Nat) :=
  ((List.range CHUNKS_COUNT).mapM (fun idx => do
      let chunk ← (splitChunks (readLines tieText) CHUNKS_COUNT).get? idx
      buildBody (ptFinal ordA C6tree) chunk)).getD []

/-! ### C1 -/

/-- C1: the round-trip claim fails on the code.  Compressing the one-line
text `ab` (a non-empty UTF-8 sequence with its own frequency map) panics:
`splitChunks` yields a single chunk and the worker loop reads `chunks[1]`
out of range, so no container is produced at all and
`decompress(compress(S, F)) = S` cannot hold. -/
theorem Compress_one_line_panics : Compress [97, 98] = none := by decide

/-! ### C2 -/

/-- C2: for the one-line body of the text `ab`, `splitChunks(body, 3)`
returns one chunk, not `CHUNKS_COUNT = 3`, and the index `chunks[1]` read
by `Compress`'s worker loop is out of bounds (an index-out-of-range panic
in Go). -/
theorem splitChunks_one_line_not_three :
    splitChunks (readLines [97, 98]) CHUNKS_COUNT = [[[97, 98]]] ∧
    (splitChunks (readLines [97, 98]) CHUNKS_COUNT).length = 1 ∧
    (splitChunks (readLines [97, 98]) CHUNKS_COUNT).get? 1 = none := by decide

/-! ### C3 -/

/-- C3: for the single-symbol frequency map of `"a"`, `buildHuffmanTree`
assigns the sole leaf the empty code and `bits = 0` — not code `0` with
`bit_length = 1` — and `convertCodeToBin` then rejects the empty code
string (`strconv.ParseUint("", 2, 32)` errors), so `Compress("a")` returns
an error and the round trip cannot succeed. -/
theorem single_symbol_code_empty :
    buildCodebookTree [(97, 1)]
        = some (node.mk (some { char := 97, freq := -1, code := [], bits := 0 }) .nil .nil) ∧
    convertCodeToBin [] = none ∧
    Compress [97] = none := by decide

/-! ### C4 -/

/-- C4 counterexample: building from the frequency map `{97 ↦ 1, 98 ↦ 2}`,
the merge step pops 97 (count 1) then 98 (count 2) and makes the
*lesser*-frequency node the right child and the greater one the left child
— the opposite of the claimed placement. -/
theorem mergeStep_greater_freq_right_cex :
    ((mergedQueue [(97, 1), (98, 2)]).getD 0 .nil).rightChild
        = node.mk (some { char := 97, freq := -1, code := [], bits := 0 }) .nil .nil ∧
    ((mergedQueue [(97, 1), (98, 2)]).getD 0 .nil).leftChild
        = node.mk (some { char := 98, freq := -2, code := [], bits := 0 }) .nil .nil ∧
    (1 : Nat) < 2 := by decide

/-- C4 (amended): when the two popped nodes carry counts `c1 ≤ c2` (stored
negated, as the heap guarantees for the first and second pop), the merge
step makes the *lesser*-count node the right child and the greater-count
node the left child; when the counts are equal the *second*-popped node
becomes the right child.  The new internal node carries the summed stored
frequency and char 0. -/
theorem mergeStep_lesser_count_right (n1 n2 : node) (c1 c2 : Nat)
    (h1 : freqOf n1 = -(c1 : Int)) (h2 : freqOf n2 = -(c2 : Int)) (hle : c1 ≤ c2) :
    (c1 < c2 → (mergeStep n1 n2).rightChild = n1 ∧ (mergeStep n1 n2).leftChild = n2) ∧
    (c1 = c2 → (mergeStep n1 n2).rightChild = n2 ∧ (mergeStep n1 n2).leftChild = n1) ∧
    (mergeStep n1 n2).value?
      = some { char := 0, freq := freqOf n1 + freqOf n2, code := [], bits := 0 } := by
  by_cases hlt : c1 < c2
  · have hcond : freqOf n1 > freqOf n2 := by rw [h1, h2]; omega
    simp only [mergeStep, if_pos hcond]
    exact ⟨fun _ => ⟨rfl, rfl⟩, fun heq => absurd heq (by omega), rfl⟩
  · have hcond : ¬ freqOf n1 > freqOf n2 := by rw [h1, h2]; omega
    simp only [mergeStep, if_neg hcond]
    exact ⟨fun h => absurd h hlt, fun _ => ⟨rfl, rfl⟩, rfl⟩

/-- Witness for the amended C4 at counts 1 and 2. -/
theorem mergeStep_lesser_count_right_witness :
    (mergeStep (node.mk (some { char := 97, freq := -1, code := [], bits := 0 }) .nil .nil)
        (node.mk (some { char := 98, freq := -2, code := [], bits := 0 }) .nil .nil)).rightChild
      = node.mk (some { char := 97, freq := -1, code := [], bits := 0 }) .nil .nil := by
  have h := mergeStep_lesser_count_right
    (node.mk (some { char := 97, freq := -1, code := [], bits := 0 }) .nil .nil)
    (node.mk (some { char := 98, freq := -2, code := [], bits := 0 }) .nil .nil)
    1 2 (by decide) (by decide) (by decide)
  exact (h.1 (by decide)).1

/-! ### C5 counterexample -/

/-- C5 counterexample: the tree built from `{0 ↦ 1, 97 ↦ 2}` has two
distinct symbols and a structural leaf for the scalar 0, but the sentinel
`char != 0` makes the serialiser skip that leaf, so the rebuilt decoding
tree assigns no `(code, bit_length)` pair to symbol 0 at all. -/
theorem header_roundtrip_nul_cex :
    buildCodebookTree cexOrder = some cexTree ∧
    (buildHeader cexTree).bind buildTreeFromHeader = some cexRebuilt ∧
    (leafValues cexTree).lookup 0 = some ([], 0) ∧
    (decAssign cexRebuilt []).lookup 0 = none := by decide

/-! ### C6 counterexample -/

/-- C6 counterexample: on empty input `Compress` successfully returns the
empty byte buffer, which does not start with a u16 LE `header_len` and so
does not have the claimed container layout. -/
theorem compress_empty_layout_cex :
    Compress [] = some [] ∧ containerLayoutOk [] = false := by decide

/-! ### C7 counterexample -/

/-- C7 counterexample: asked to encode the scalar 98, which has no
prefix-table entry, the body encoder dereferences the nil map entry at
`item.code` and panics (`none`); `buildBody` in the parallel variant has no
error return value, so no `UnknownSymbol` error is ever produced. -/
theorem buildBody_unknown_symbol_cex :
    buildBody ptOnlyA [[98]] = none ∧ ptOnlyA 98 = none := by decide

/-! ### C8 -/

/-- C8 counterexample: decoding the one-byte segment `0x00` with
`pad_zeros = 7` under the two-symbol tree `exTree` consumes one bit, leaves
the cursor at an internal node (not the root), and still returns the normal
result `some []` — no `TruncatedSegment` error exists in the code. -/
theorem decode_truncated_returns_normally_cex :
    decompressChunk 7 [0] exTree = some [] ∧
    decompressChunkAux exTree 7 [0] exTree [] = some (exTree.leftChild, []) ∧
    exTree.leftChild ≠ exTree := by decide

/-- C8 (amended): descending into an absent child is a nil-pointer panic
(`t.value` on nil), not an `InvalidCode` error — shown in general for one
walker step and concretely for a whole segment decode — and there is no
root-cursor check after the final bit: a segment whose bits stop mid-path
decodes normally to the symbols completed so far. -/
theorem decoder_nil_child_panics :
    (∀ (v : Option lookupItem) (l r : node) (d : Nat),
        (if d = 0 then l else r) = node.nil → walkStep (node.mk v l r) d = none) ∧
    decompressChunk 0 [128] (node.mk none (node.mk none .nil .nil) .nil) = none ∧
    decompressChunk 3 [16] exTree = some [97, 98] := by
  refine ⟨fun v l r d h => ?_, by decide, by decide⟩
  simp only [walkStep, h]

/-- Witness for the amended C8: one concrete walker step into a nil right
child panics. -/
theorem decoder_nil_child_panics_witness :
    walkStep (node.mk none (node.mk none .nil .nil) .nil) 1 = none :=
  decoder_nil_child_panics.1 none (node.mk none .nil .nil) .nil 1 (by decide)

/-! ### C7 (amended): a missing prefix-table entry makes `buildBody` panic -/

/-- Unfolding of the `do` block of `buildBody`. -/
theorem buildBody_eq (pt : Nat → Option lookupItem) (body : List (List Nat)) :
    buildBody pt body =
      (body.foldlM (fun (st : Nat × Nat × List Nat) (line : List Nat) =>
          line.foldlM (encodeRune pt) st) (0, 0, [])).bind
        (fun st =>
          if st.2.1 > 0 then some (st.2.2 ++ [st.1 * 2 ^ (8 - st.2.1) % 256], 8 - st.2.1)
          else some (st.2.2, 0)) := rfl

/-- If the encoder consumed a whole line successfully, every scalar of the
line had a prefix-table entry. -/
theorem encodeLine_isSome (pt : Nat → Option lookupItem) :
    ∀ (line : List Nat) (st st' : Nat × Nat × List Nat),
      line.foldlM (encodeRune pt) st = some st' → ∀ r ∈ line, (pt r).isSome := by
  intro line
  induction line with
  | nil => intro st st' _ r hr; simp at hr
  | cons a as ih =>
    intro st st' h r hr
    rw [List.foldlM_cons] at h
    obtain ⟨s1, hs1, hrest⟩ := Option.bind_eq_some.mp h
    rcases List.mem_cons.mp hr with hr | hr
    · subst hr
      obtain ⟨it, hit, _⟩ := Option.map_eq_some'.mp hs1
      simp [hit]
    · exact ih s1 st' hrest r hr

/-- If the encoder consumed the whole body successfully, every scalar of
every line had a prefix-table entry. -/
theorem foldBody_isSome (pt : Nat → Option lookupItem) :
    ∀ (body : List (List Nat)) (st st' : Nat × Nat × List Nat),
      body.foldlM (fun (st : Nat × Nat × List Nat) (line : List Nat) =>
          line.foldlM (encodeRune pt) st) st = some st' →
      ∀ line ∈ body, ∀ r ∈ line, (pt r).isSome := by
  intro body
  induction body with
  | nil => intro st st' _ line hl; simp at hl
  | cons l ls ih =>
    intro st st' h line hl
    rw [List.foldlM_cons] at h
    obtain ⟨s1, hs1, hrest⟩ := Option.bind_eq_some.mp h
    rcases List.mem_cons.mp hl with hl | hl
    · subst hl; exact encodeLine_isSome pt line st s1 hs1
    · exact ih s1 st' hrest line hl

/-- C7 (amended): when some scalar of the body has no prefix-table entry,
`buildBody` dereferences the nil entry at `item.code` and panics (`none`);
the parallel variant's `buildBody` has no error return value, so no
`UnknownSymbol` error is produced — and nothing is emitted either. -/
theorem buildBody_unknown_symbol_panics (pt : Nat → Option lookupItem)
    (body : List (List Nat)) (line : List Nat) (r : Nat)
    (hl : line ∈ body) (hr : r ∈ line) (hnone : pt r = none) :
    buildBody pt body = none := by
  cases h : buildBody pt body with
  | none => rfl
  | some res =>
    rw [buildBody_eq] at h
    obtain ⟨st, hst, _⟩ := Option.bind_eq_some.mp h
    have := foldBody_isSome pt body _ st hst line hl r hr
    rw [hnone] at this
    simp at this

/-- Witness for the amended C7: encoding `a` then the unknown scalar 99
panics. -/
theorem buildBody_unknown_symbol_panics_witness :
    buildBody ptOnlyA [[97, 99]] = none :=
  buildBody_unknown_symbol_panics ptOnlyA [[97, 99]] [97, 99] 99
    (by decide) (by decide) (by decide)

/-! ### C9: pad bounds and exact bit accounting of `buildBody` -/

/-- Bridge for the `currentByte |= 1` step: OR-ing 1 into an even byte adds
one. -/
theorem two_mul_or_one (a : Nat) : 2 * a ||| 1 = 2 * a + 1 := by
  have h := Nat.lor_bit false a true 0
  simpa [Nat.bit] using h

/-- The loop invariant of the bit-packing state: fewer than 8 pending bits,
the accumulator below `2 ^ bitCount`, and the processed bit total is
`8 * |output| + bitCount`. -/
def bodyInv (st : Nat × Nat × List Nat) (bits : Nat) : Prop :=
  st.2.1 < 8 ∧ st.1 < 2 ^ st.2.1 ∧ bits = 8 * st.2.2.length + st.2.1

/-- Introduction form of `bodyInv` on an explicit state triple. -/
theorem bodyInv_mk (cur cnt : Nat) (out : List Nat) (bits : Nat)
    (h1 : cnt < 8) (h2 : cur < 2 ^ cnt) (h3 : bits = 8 * out.length + cnt) :
    bodyInv (cur, cnt, out) bits := ⟨h1, h2, h3⟩

/-- Pushing one bit preserves the invariant and counts one more bit. -/
theorem pushBit_inv (st : Nat × Nat × List Nat) (bits : Nat) (b : Char)
    (h : bodyInv st bits) : bodyInv (pushBit st b) (bits + 1) := by
  obtain ⟨h8, hcur, hbits⟩ := h
  have hp : (2 : Nat) ^ st.2.1 ≤ 2 ^ 7 := Nat.pow_le_pow_right (by norm_num) (by omega)
  have h7 : (2 : Nat) ^ 7 = 128 := by norm_num
  have hmod : st.1 * 2 % 256 = st.1 * 2 := Nat.mod_eq_of_lt (by omega)
  have hor : st.1 * 2 ||| 1 = st.1 * 2 + 1 := by
    rw [Nat.mul_comm]; exact two_mul_or_one st.1
  have hpow : (2 : Nat) ^ (st.2.1 + 1) = 2 * 2 ^ st.2.1 := by
    rw [pow_succ]; ring
  dsimp only [pushBit]
  rw [hmod]
  by_cases hb : b = '1'
  · rw [if_pos hb]
    by_cases h8' : st.2.1 + 1 = 8
    · rw [if_pos h8']
      refine bodyInv_mk _ _ _ _ (by omega) (by norm_num) ?_
      simp only [List.length_append, List.length_cons, List.length_nil]
      omega
    · rw [if_neg h8']
      refine bodyInv_mk _ _ _ _ (by omega) ?_ (by omega)
      rw [hor, hpow]
      omega
  · rw [if_neg hb]
    by_cases h8' : st.2.1 + 1 = 8
    · rw [if_pos h8']
      refine bodyInv_mk _ _ _ _ (by omega) (by norm_num) ?_
      simp only [List.length_append, List.length_cons, List.length_nil]
      omega
    · rw [if_neg h8']
      refine bodyInv_mk _ _ _ _ (by omega) ?_ (by omega)
      rw [hpow]
      omega

/-- Folding the bits of one code preserves the invariant, adding the code
length to the bit total. -/
theorem foldl_pushBit_inv (code : List Char) :
    ∀ (st : Nat × Nat × List Nat) (bits : Nat), bodyInv st bits →
      bodyInv (code.foldl pushBit st) (bits + code.length) := by
  induction code with
  | nil => intro st bits h; simpa using h
  | cons c cs ih =>
    intro st bits h
    have h2 := ih (pushBit st c) (bits + 1) (pushBit_inv st bits c h)
    simp only [List.foldl_cons, List.length_cons]
    have he : bits + (cs.length + 1) = bits + 1 + cs.length := by omega
    rw [he]
    exact h2

/-- One scalar's encoding step preserves the invariant, adding its code
length. -/
theorem encodeRune_inv (pt : Nat → Option lookupItem) (st st' : Nat × Nat × List Nat)
    (r : Nat) (bits : Nat) (h : encodeRune pt st r = some st') (hi : bodyInv st bits) :
    bodyInv st' (bits + ((pt r).map (fun it => it.code.length)).getD 0) := by
  unfold encodeRune at h
  obtain ⟨it, hit, hst'⟩ := Option.map_eq_some'.mp h
  subst hst'
  rw [hit]
  simpa using foldl_pushBit_inv it.code st bits hi

/-- Encoding one whole line preserves the invariant, adding the line's code
bits. -/
theorem encodeLine_inv (pt : Nat → Option lookupItem) (line : List Nat) :
    ∀ (st st' : Nat × Nat × List Nat) (bits : Nat),
      line.foldlM (encodeRune pt) st = some st' → bodyInv st bits →
      bodyInv st'
        (bits + (line.map (fun r => ((pt r).map (fun it => it.code.length)).getD 0)).sum) := by
  induction line with
  | nil =>
    intro st st' bits h hi
    simp only [List.foldlM_nil, Option.pure_def, Option.some_inj] at h
    subst h
    simpa using hi
  | cons a as ih =>
    intro st st' bits h hi
    rw [List.foldlM_cons] at h
    obtain ⟨s1, hs1, hrest⟩ := Option.bind_eq_some.mp h
    have h1 := encodeRune_inv pt st s1 a bits hs1 hi
    have h2 := ih s1 st' _ hrest h1
    simp only [List.map_cons, List.sum_cons]
    rw [← Nat.add_assoc]
    exact h2

/-- Encoding the whole body preserves the invariant, adding
`totalCodeBits`. -/
theorem foldBody_inv (pt : Nat → Option lookupItem) (body : List (List Nat)) :
    ∀ (st st' : Nat × Nat × List Nat) (bits : Nat),
      body.foldlM (fun (st : Nat × Nat × List Nat) (line : List Nat) =>
        line.foldlM (encodeRune pt) st) st = some st' → bodyInv st bits →
      bodyInv st' (bits + totalCodeBits pt body) := by
  induction body with
  | nil =>
    intro st st' bits h hi
    simp only [List.foldlM_nil, Option.pure_def, Option.some_inj] at h
    subst h
    simpa [totalCodeBits] using hi
  | cons l ls ih =>
    intro st st' bits h hi
    rw [List.foldlM_cons] at h
    obtain ⟨s1, hs1, hrest⟩ := Option.bind_eq_some.mp h
    have h1 := encodeLine_inv pt l st s1 bits hs1 hi
    have h2 := ih s1 st' _ hrest h1
    simp only [totalCodeBits, List.map_cons, List.sum_cons]
    rw [← Nat.add_assoc]
    exact h2

/-- C9: for every segment the body encoder produces, `pad_zeros` lies in
`0..=7`, the total number of code bits equals
`8 · byte_length − pad_zeros` (stated addition-side), and the final byte's
low `pad_zeros` bits are zero. -/
theorem buildBody_pad_bounds (pt : Nat → Option lookupItem) (body : List (List Nat))
    (bytes : List Nat) (pad : Nat) (h : buildBody pt body = some (bytes, pad)) :
    pad ≤ 7 ∧ 8 * bytes.length = totalCodeBits pt body + pad ∧
      ∀ b, bytes.getLast? = some b → b % 2 ^ pad = 0 := by
  rw [buildBody_eq] at h
  obtain ⟨st, hst, hfin⟩ := Option.bind_eq_some.mp h
  have h0 : bodyInv (0, 0, []) 0 :=
    bodyInv_mk 0 0 [] 0 (by norm_num) (by norm_num) (by simp)
  have hinv := foldBody_inv pt body _ st 0 hst h0
  rw [Nat.zero_add] at hinv
  obtain ⟨h8, hcur, hbits⟩ := hinv
  by_cases hpos : st.2.1 > 0
  · rw [if_pos hpos] at hfin
    simp only [Option.some_inj, Prod.mk.injEq] at hfin
    obtain ⟨hb1, hb2⟩ := hfin
    subst hb1
    subst hb2
    have hcp : (2 : Nat) ^ st.2.1 * 2 ^ (8 - st.2.1) = 256 := by
      rw [← pow_add]
      have : st.2.1 + (8 - st.2.1) = 8 := by omega
      rw [this]
      norm_num
    have hx : st.1 * 2 ^ (8 - st.2.1) < 256 := by
      have hpos2 : 0 < (2 : Nat) ^ (8 - st.2.1) := pow_pos (by norm_num) _
      have hmul := mul_lt_mul_of_pos_right hcur hpos2
      omega
    refine ⟨by omega, ?_, ?_⟩
    · simp only [List.length_append, List.length_cons, List.length_nil]
      omega
    · intro b hb
      rw [List.getLast?_concat] at hb
      simp only [Option.some_inj] at hb
      subst hb
      rw [Nat.mod_eq_of_lt hx]
      exact Nat.mul_mod_left st.1 (2 ^ (8 - st.2.1))
  · rw [if_neg hpos] at hfin
    simp only [Option.some_inj, Prod.mk.injEq] at hfin
    obtain ⟨hb1, hb2⟩ := hfin
    subst hb1
    subst hb2
    refine ⟨by omega, by omega, ?_⟩
    intro b _
    simp [Nat.mod_one]

/-- Witness for C9: the segment for `aaa` under a one-bit code has one byte
and five pad zeros, and `8 · 1 = 3 + 5`. -/
theorem buildBody_pad_bounds_witness :
    (5 : Nat) ≤ 7 ∧ 8 * ([(0 : Nat)] : List Nat).length = totalCodeBits ptOnlyA [[97, 97, 97]] + 5 ∧
      ∀ b, ([(0 : Nat)] : List Nat).getLast? = some b → b % 2 ^ 5 = 0 :=
  buildBody_pad_bounds ptOnlyA [[97, 97, 97]] [0] 5 (by decide)

/-! ### C6 (amended): layout of containers for non-empty inputs -/

/-- The 4 bytes of `putUint32` decode back to `n` for uint32 values. -/
theorem decodeLE32_putUint32 (n : Nat) (h : n < 4294967296) :
    decodeLE32 (putUint32 n) = n := by
  simp only [decodeLE32, putUint32, List.getD_cons_zero, List.getD_cons_succ]
  omega

/-- The length of a `putUint32` record. -/
theorem length_putUint32 (n : Nat) : (putUint32 n).length = 4 := rfl

/-- A flattened list of segment frames `pad · byte_length (u32 LE) · bytes`
satisfies the spec's segment grammar whenever every body length fits in a
u32. -/
theorem segmentsOkAux_frames (segs : List (List Nat × Nat)) :
    ∀ fuel : Nat,
      ((segs.map (fun s => s.2 :: (putUint32 s.1.length ++ s.1))).flatten).length ≤ fuel →
      (∀ s ∈ segs, s.1.length < 4294967296) →
      segmentsOkAux fuel ((segs.map (fun s => s.2 :: (putUint32 s.1.length ++ s.1))).flatten)
        = true := by
  induction segs with
  | nil =>
    intro fuel _ _
    cases fuel <;> rfl
  | cons s ss ih =>
    intro fuel hfuel hlen
    simp only [List.map_cons, List.flatten_cons, List.cons_append] at hfuel ⊢
    cases fuel with
    | zero =>
      simp only [List.length_cons] at hfuel
      omega
    | succ fuel =>
      dsimp only [segmentsOkAux]
      rw [List.append_assoc]
      have h1 : 4 ≤ (putUint32 s.1.length ++
          (s.1 ++ (ss.map (fun s => s.2 :: (putUint32 s.1.length ++ s.1))).flatten)).length := by
        simp [List.length_append, length_putUint32]
      rw [if_pos h1]
      rw [List.take_left' (length_putUint32 _), List.drop_left' (length_putUint32 _)]
      rw [decodeLE32_putUint32 _ (hlen s (List.mem_cons_self _ _))]
      have h2 : s.1.length ≤
          (s.1 ++ (ss.map (fun s => s.2 :: (putUint32 s.1.length ++ s.1))).flatten).length := by
        simp [List.length_append]
      rw [if_pos h2]
      rw [List.drop_left]
      refine ih fuel ?_ (fun x hx => hlen x (List.mem_cons_of_mem _ hx))
      simp only [List.length_cons, List.length_append, length_putUint32] at hfuel
      omega

/-- Framing a header (short enough for u16) and well-formed segments yields
a container that the spec's layout grammar accepts. -/
theorem assembled_layout (header : List Nat) (segs : List (List Nat × Nat))
    (hh : header.length < 65536) (hs : ∀ s ∈ segs, s.1.length < 4294967296) :
    containerLayoutOk (putUint16 header.length ++ header ++
      (segs.map fun s => s.2 :: (putUint32 s.1.length ++ s.1)).flatten) = true := by
  have hcons : putUint16 header.length ++ header ++
      (segs.map fun s => s.2 :: (putUint32 s.1.length ++ s.1)).flatten
      = header.length % 256 :: (header.length / 256 % 256) ::
        (header ++ (segs.map fun s => s.2 :: (putUint32 s.1.length ++ s.1)).flatten) := by
    simp [putUint16, List.append_assoc]
  rw [hcons]
  dsimp only [containerLayoutOk]
  have hL : header.length % 256 + 256 * (header.length / 256 % 256) = header.length := by
    omega
  rw [hL, List.drop_left]
  simp only [Bool.and_eq_true, decide_eq_true_eq]
  refine ⟨by simp [List.length_append], ?_⟩
  exact segmentsOkAux_frames segs _ (Nat.le_refl _) hs

/-- C6 (amended): on every non-empty input where compression succeeds (with
the header below the u16 bound and every segment body below the u32 bound),
the container is exactly `header_len (u16 LE) · header · [segment…]` with
`segment = pad_zeros (u8) · byte_length (u32 LE) · bytes`, nothing between
or after the segments — it satisfies the spec's layout grammar. -/
theorem compress_layout (text : List Nat) (ord : List (Nat × Nat)) (t : node)
    (header : List Nat) (segs : List (List Nat × Nat))
    (hne : text.isEmpty = false)
    (ht : buildCodebookTree ord = some t)
    (hh : buildHeader t = some header)
    (hsegs : (List.range CHUNKS_COUNT).mapM (fun idx => do
        let chunk ← (splitChunks (readLines text) CHUNKS_COUNT).get? idx
        buildBody (ptFinal ord t) chunk) = some segs)
    (hlen : header.length < 65536)
    (hblen : ∀ s ∈ segs, s.1.length < 4294967296) :
    CompressWithOrder text ord = some (putUint16 header.length ++ header ++
        (segs.map fun s => s.2 :: (putUint32 s.1.length ++ s.1)).flatten) ∧
    containerLayoutOk (putUint16 header.length ++ header ++
        (segs.map fun s => s.2 :: (putUint32 s.1.length ++ s.1)).flatten) = true := by
  constructor
  · rw [CompressWithOrder]
    rw [hne]
    rw [if_neg (by decide : ¬(false = true))]
    rw [ht]
    simp only [Option.pure_def, Option.bind_eq_bind, Option.some_bind]
    rw [hh]
    simp only [Option.some_bind]
    simp only [Option.pure_def, Option.bind_eq_bind] at hsegs
    rw [hsegs]
    simp only [Option.some_bind]
  · exact assembled_layout header segs hlen hblen

/-- Witness for the amended C6 on the three-line text `tieText`. -/
theorem compress_layout_witness :
    CompressWithOrder tieText ordA = some (putUint16 C6header.length ++ C6header ++
        (C6segs.map fun s => s.2 :: (putUint32 s.1.length ++ s.1)).flatten) ∧
    containerLayoutOk (putUint16 C6header.length ++ C6header ++
        (C6segs.map fun s => s.2 :: (putUint32 s.1.length ++ s.1)).flatten) = true :=
  compress_layout tieText ordA C6tree C6header C6segs (by decide) (by decide) (by decide)
    (by decide) (by decide) (by decide)

/-! ### C5 (amended): header round-trip for sentinel-free codebook trees -/

/-- Folding the binary digits from an arbitrary accumulator. -/
theorem binVal_foldl (cs : List Char) :
    ∀ acc : Nat, cs.foldl (fun acc c => acc * 2 + (if c = '1' then 1 else 0)) acc
      = acc * 2 ^ cs.length + binVal cs := by
  induction cs with
  | nil => intro acc; simp [binVal]
  | cons c cs ih =>
    intro acc
    simp only [List.foldl_cons, List.length_cons]
    rw [ih]
    conv_rhs => rw [binVal, List.foldl_cons, ih]
    have hpow : (2 : Nat) ^ (cs.length + 1) = 2 ^ cs.length * 2 := by rw [pow_succ]
    rw [hpow]
    ring

/-- Peeling the leading digit off a binary code string. -/
theorem binVal_cons (c : Char) (cs : List Char) :
    binVal (c :: cs) = (if c = '1' then 1 else 0) * 2 ^ cs.length + binVal cs := by
  rw [binVal, List.foldl_cons, binVal_foldl]
  ring_nf

/-- A binary string of length `n` has value below `2 ^ n`. -/
theorem binVal_lt (cs : List Char) : binVal cs < 2 ^ cs.length := by
  induction cs with
  | nil => simp [binVal]
  | cons c cs ih =>
    rw [binVal_cons]
    simp only [List.length_cons]
    have hpow : (2 : Nat) ^ (cs.length + 1) = 2 * 2 ^ cs.length := by rw [pow_succ]; ring
    by_cases hc : c = '1'
    · rw [if_pos hc]; omega
    · rw [if_neg hc]; omega

/-- On binary strings, `strconv.ParseUint`'s digit loop computes `binVal`. -/
theorem binDigits_foldl (cs : List Char) :
    ∀ acc : Nat, isBin cs →
      cs.foldlM (fun acc c =>
          if c = '0' then some (acc * 2)
          else if c = '1' then some (acc * 2 + 1) else none) acc
        = some (cs.foldl (fun acc c => acc * 2 + (if c = '1' then 1 else 0)) acc) := by
  induction cs with
  | nil => intro acc _; rfl
  | cons c cs ih =>
    intro acc hbin
    rw [List.foldlM_cons, List.foldl_cons]
    have htl : isBin cs := fun x hx => hbin x (List.mem_cons_of_mem _ hx)
    rcases hbin c (List.mem_cons_self _ _) with hc | hc
    · subst hc
      simp only [if_pos rfl, Option.some_bind, if_neg (by decide : ¬('0' : Char) = '1'),
        Option.bind_eq_bind, Option.pure_def]
      simpa using ih (acc * 2) htl
    · subst hc
      simp only [if_neg (by decide : ¬('1' : Char) = '0'), if_pos rfl, Option.some_bind,
        Option.bind_eq_bind, Option.pure_def]
      simpa using ih (acc * 2 + 1) htl

/-- On binary strings `binDigits` succeeds with value `binVal`. -/
theorem binDigits_isBin (cs : List Char) (h : isBin cs) : binDigits cs = some (binVal cs) := by
  rw [binDigits, binDigits_foldl cs 0 h]
  rfl

/-- On a non-empty binary code of at most 32 bits, `convertCodeToBin`
succeeds and serialises `binVal`. -/
theorem convertCodeToBin_isBin (cs : List Char) (hb : isBin cs) (hne : cs ≠ [])
    (hlen : cs.length ≤ 32) : convertCodeToBin cs = some (convertToBin (binVal cs)) := by
  rw [convertCodeToBin, if_neg hne, binDigits_isBin cs hb]
  have hlt : binVal cs < 4294967296 := by
    have h1 := binVal_lt cs
    have h2 : (2 : Nat) ^ cs.length ≤ 2 ^ 32 := Nat.pow_le_pow_right (by norm_num) hlen
    have h3 : (2 : Nat) ^ 32 = 4294967296 := by norm_num
    omega
  simp only [hlt, if_true]

/-- Extracting a bit below position `L` ignores a `dChar · 2^L` summand. -/
theorem shift_low_bit (dChar x L k : Nat) (hk : k < L) :
    ((dChar * 2 ^ L + x) >>> k) &&& 1 = (x >>> k) &&& 1 := by
  rw [Nat.shiftRight_eq_div_pow, Nat.shiftRight_eq_div_pow, Nat.and_one_is_mod,
    Nat.and_one_is_mod]
  have e1 : (2 : Nat) ^ L = 2 ^ k * (2 * 2 ^ (L - k - 1)) := by
    have e0 : (2 : Nat) * 2 ^ (L - k - 1) = 2 ^ (L - k) := by
      rw [← pow_succ']
      congr 1
      omega
    rw [e0, ← pow_add]
    congr 1
    omega
  have e2 : dChar * 2 ^ L + x = 2 ^ k * (dChar * (2 * 2 ^ (L - k - 1))) + x := by
    rw [e1]; ring
  rw [e2, Nat.mul_add_div (pow_pos (by norm_num) k)]
  have e3 : dChar * (2 * 2 ^ (L - k - 1)) = 2 * (dChar * 2 ^ (L - k - 1)) := by ring
  rw [e3]
  omega

/-- Bit `L` of `dChar · 2^L + x` is `dChar` when `x < 2^L` and
`dChar ≤ 1`. -/
theorem shift_top_bit (dChar x L : Nat) (hd : dChar ≤ 1) (hx : x < 2 ^ L) :
    ((dChar * 2 ^ L + x) >>> L) &&& 1 = dChar := by
  rw [Nat.shiftRight_eq_div_pow, Nat.and_one_is_mod]
  have e2 : dChar * 2 ^ L + x = 2 ^ L * dChar + x := by ring
  rw [e2, Nat.mul_add_div (pow_pos (by norm_num) L), Nat.div_eq_of_lt hx]
  omega

/-- Walking `q.length` bits of any value whose low bits agree with
`binVal q` inserts exactly along the path `q`. -/
theorem addNode_eq_addPathC (q : List Char) :
    ∀ (t : node) (c v : Nat),
      isBin q →
      (∀ k, k < q.length → (v >>> k) &&& 1 = (binVal q >>> k) &&& 1) →
      addNode t c v q.length = addPathC t c q := by
  induction q with
  | nil =>
    intro t c v _ _
    cases t <;> rfl
  | cons d p ih =>
    intro t c v hbin hbits
    cases t with
    | nil => rfl
    | mk w l r =>
      have htl : isBin p := fun x hx => hbin x (List.mem_cons_of_mem _ hx)
      have hdle : (if d = '1' then 1 else 0 : Nat) ≤ 1 := by split <;> norm_num
      have hbv : (binVal (d :: p) >>> p.length) &&& 1 = (if d = '1' then 1 else 0) := by
        rw [binVal_cons]
        exact shift_top_bit _ _ _ hdle (binVal_lt p)
      have htop : (v >>> p.length) &&& 1 = (if d = '1' then 1 else 0) := by
        rw [hbits p.length (by simp), hbv]
      have hlow : ∀ k, k < p.length → (v >>> k) &&& 1 = (binVal p >>> k) &&& 1 := by
        intro k hk
        rw [hbits k (by simp; omega), binVal_cons]
        exact shift_low_bit _ _ _ _ hk
      simp only [List.length_cons]
      rcases hbin d (List.mem_cons_self _ _) with hd | hd
      · subst hd
        have h0 : (v >>> p.length) &&& 1 = 0 := by rw [htop]; simp
        rw [addNode, if_pos h0, addPathC, if_pos rfl]
        rw [ih (orEmpty l) c v htl hlow]
      · subst hd
        have h1 : (v >>> p.length) &&& 1 = 1 := by rw [htop]; simp
        rw [addNode, if_neg (by omega), addPathC, if_neg (by decide)]
        rw [ih (orEmpty r) c v htl hlow]

/-- Record lists of codebook trees: the leaf case. -/
theorem treeRecords_leaf (it : lookupItem) (hc : it.char ≠ 0) :
    treeRecords (node.mk (some it) .nil .nil) = [(it.char, it.code, it.bits)] := by
  rw [treeRecords, if_pos hc]
  rfl

/-- Record lists of codebook trees: the internal (sentinel char 0) case. -/
theorem treeRecords_internal (it : lookupItem) (l r : node) (hc : it.char = 0) :
    treeRecords (node.mk (some it) l r) = treeRecords l ++ treeRecords r := by
  rw [treeRecords, if_neg (by simp [hc])]

/-- Appending one binary digit keeps a code string binary. -/
theorem isBin_append_bit (p : List Char) (c : Char) (h : isBin p)
    (hb : c = '0' ∨ c = '1') : isBin (p ++ [c]) := by
  intro x hx
  rcases List.mem_append.mp hx with hx | hx
  · exact h x hx
  · simp only [List.mem_singleton] at hx
    subst hx
    exact hb

/-- On codebook trees `buildHuffmanTree` succeeds and annotates every leaf
with its path and depth. -/
theorem buildHuffmanTree_ann {T : node} (h : CodebookTree T) :
    ∀ p : List Char, ∃ T', buildHuffmanTree T p p.length = some T' ∧ AnnTree T' p := by
  induction h with
  | leaf it hc hlt =>
    intro p
    refine ⟨_, ?_, AnnTree.leaf { it with code := p, bits := p.length } p hc hlt rfl rfl⟩
    rw [buildHuffmanTree, if_pos hc]
  | internal it l r hc _ _ ihl ihr =>
    intro p
    obtain ⟨l', hl', al⟩ := ihl (p ++ ['0'])
    obtain ⟨r', hr', ar⟩ := ihr (p ++ ['1'])
    refine ⟨node.mk (some it) l' r', ?_, AnnTree.internal it l' r' p hc al ar⟩
    rw [buildHuffmanTree, if_neg (by simp [hc])]
    rw [show (p ++ ['0']).length = p.length + 1 from by simp] at hl'
    rw [show (p ++ ['1']).length = p.length + 1 from by simp] at hr'
    rw [hl']
    simp only [Option.pure_def, Option.bind_eq_bind, Option.some_bind]
    rw [hr']
    simp only [Option.some_bind]

/-- Every record of an annotated subtree rooted below a non-empty binary
path has a non-empty binary code of length `bits` and a uint32 char. -/
theorem treeRecords_wf {T : node} {p : List Char} (h : AnnTree T p) :
    isBin p → p ≠ [] →
    ∀ rec ∈ treeRecords T,
      isBin rec.2.1 ∧ rec.2.1 ≠ [] ∧ rec.2.2 = rec.2.1.length ∧ rec.1 < 4294967296 := by
  induction h with
  | leaf it p hc hlt hcode hbits =>
    intro hbp hpne rec hrec
    rw [treeRecords_leaf it hc] at hrec
    simp only [List.mem_singleton] at hrec
    subst hrec
    refine ⟨by rw [hcode]; exact hbp, by rw [hcode]; exact hpne, ?_, hlt⟩
    rw [hcode, hbits]
  | internal it l r p hc _ _ ihl ihr =>
    intro hbp _ rec hrec
    rw [treeRecords_internal it l r hc] at hrec
    rcases List.mem_append.mp hrec with hrec | hrec
    · exact ihl (isBin_append_bit p '0' hbp (Or.inl rfl)) (by simp) rec hrec
    · exact ihr (isBin_append_bit p '1' hbp (Or.inr rfl)) (by simp) rec hrec

/-- Serialisation: `buildHeaderRecursive` on an annotated subtree (below a non-empty
binary path, all depths at most 32) serialises exactly the 9-byte records
of `treeRecords`. -/
theorem buildHeader_ann {T : node} {p : List Char} (h : AnnTree T p) :
    isBin p → p ≠ [] →
    (∀ rec ∈ treeRecords T, rec.2.2 ≤ 32) →
    buildHeaderRecursive T = some ((treeRecords T).flatMap encode9) := by
  induction h with
  | leaf it p hc hlt hcode hbits =>
    intro hbp hpne hb32
    have hrec : (it.char, it.code, it.bits) ∈ treeRecords (node.mk (some it) .nil .nil) := by
      rw [treeRecords_leaf it hc]
      exact List.mem_singleton_self _
    have hlen : it.code.length ≤ 32 := by
      have h32 := hb32 _ hrec
      simp only at h32
      rw [hcode]
      omega
    rw [buildHeaderRecursive, if_pos hc, hcode]
    rw [convertCodeToBin_isBin p (hcode ▸ hbp) (hcode ▸ hpne) (by rw [← hcode]; exact hlen)]
    simp only [Option.pure_def, Option.bind_eq_bind, Option.some_bind]
    rw [buildHeaderRecursive]
    simp only [Option.some_bind]
    rw [treeRecords_leaf it hc]
    simp only [List.flatMap_cons, List.flatMap_nil, List.append_nil, encode9, hcode]
  | internal it l r p hc _ _ ihl ihr =>
    intro hbp _ hb32
    have hrl : ∀ rec ∈ treeRecords l, rec.2.2 ≤ 32 := by
      intro rec hr
      exact hb32 rec (by rw [treeRecords_internal it l r hc]; exact List.mem_append_left _ hr)
    have hrr : ∀ rec ∈ treeRecords r, rec.2.2 ≤ 32 := by
      intro rec hr
      exact hb32 rec (by rw [treeRecords_internal it l r hc]; exact List.mem_append_right _ hr)
    rw [buildHeaderRecursive, if_neg (by simp [hc])]
    simp only [Option.pure_def, Option.bind_eq_bind, Option.some_bind]
    rw [ihl (isBin_append_bit p '0' hbp (Or.inl rfl)) (by simp) hrl]
    simp only [Option.some_bind]
    rw [ihr (isBin_append_bit p '1' hbp (Or.inr rfl)) (by simp) hrr]
    simp only [Option.some_bind]
    rw [treeRecords_internal it l r hc, List.flatMap_append]
    simp

/-- The length of an `encode9` record. -/
theorem length_encode9 (rec : Nat × List Char × Nat) : (encode9 rec).length = 9 := rfl

/-- One step of the header-parsing loop on a 9-byte record followed by the
rest of the stream. -/
theorem parseHeaderTreeAux_step (fuel : Nat) (xs rest : List Nat) (t : node)
    (h9 : xs.length = 9) :
    parseHeaderTreeAux (fuel + 1) (xs ++ rest) t
      = parseHeaderTreeAux fuel rest
          (addNode t (decodeLE32 (xs.take 4)) (decodeLE32 ((xs.drop 4).take 4))
            (xs.getD 8 0)) := by
  cases xs with
  | nil => simp at h9
  | cons b bs =>
    rw [List.cons_append, parseHeaderTreeAux]
    have hlen : (b :: (bs ++ rest)).length = 9 + rest.length := by
      simp only [List.length_cons, List.length_append] at h9 ⊢
      omega
    rw [if_pos (by omega)]
    rw [← List.cons_append]
    rw [List.take_left' h9, List.drop_left' h9]

/-- Parsing a stream of 9-byte records applies `addNode` record by
record. -/
theorem parseHeaderTreeAux_flatMap (recs : List (Nat × List Char × Nat)) :
    ∀ (fuel : Nat) (t : node),
      (recs.flatMap encode9).length ≤ fuel →
      (∀ rec ∈ recs, rec.1 < 4294967296 ∧ rec.2.2 ≤ 32 ∧ binVal rec.2.1 < 4294967296) →
      parseHeaderTreeAux fuel (recs.flatMap encode9) t
        = some (recs.foldl (fun t rec => addNode t rec.1 (binVal rec.2.1) rec.2.2) t) := by
  induction recs with
  | nil =>
    intro fuel t _ _
    cases fuel <;> rfl
  | cons rec recs ih =>
    intro fuel t hfuel hwf
    rw [List.flatMap_cons] at hfuel ⊢
    have hflen : (encode9 rec ++ recs.flatMap encode9).length
        = 9 + (recs.flatMap encode9).length := by
      rw [List.length_append, length_encode9]
    cases fuel with
    | zero => omega
    | succ fuel =>
      rw [parseHeaderTreeAux_step fuel (encode9 rec) _ t (length_encode9 rec)]
      obtain ⟨hc, hb, hv⟩ := hwf rec (List.mem_cons_self _ _)
      have e1 : (encode9 rec).take 4 = putUint32 rec.1 := rfl
      have e2 : ((encode9 rec).drop 4).take 4 = putUint32 (binVal rec.2.1) := rfl
      have e3 : (encode9 rec).getD 8 0 = rec.2.2 % 256 := rfl
      rw [e1, e2, e3, decodeLE32_putUint32 _ hc, decodeLE32_putUint32 _ hv,
        Nat.mod_eq_of_lt (by omega : rec.2.2 < 256)]
      rw [List.foldl_cons]
      exact ih fuel _ (by omega) (fun x hx => hwf x (List.mem_cons_of_mem _ hx))

/-- The function `orEmpty` is the identity on allocated nodes. -/
theorem orEmpty_is_mk (l : node) : ∃ v a b, orEmpty l = node.mk v a b := by
  cases l with
  | nil => exact ⟨none, .nil, .nil, rfl⟩
  | mk v a b => exact ⟨v, a, b, rfl⟩

/-- Insertion returns an allocated node on an allocated receiver. -/
theorem addPathC_mk (v : Option lookupItem) (l r : node) (c : Nat) (q : List Char) :
    ∃ v' l' r', addPathC (node.mk v l r) c q = node.mk v' l' r' := by
  cases q with
  | nil => exact ⟨_, _, _, rfl⟩
  | cons d p =>
    by_cases hd : d = '0'
    · rw [addPathC, if_pos hd]; exact ⟨_, _, _, rfl⟩
    · rw [addPathC, if_neg hd]; exact ⟨_, _, _, rfl⟩

/-- Inserting into the fresh subtree of an allocated child needs no second
allocation. -/
theorem orEmpty_addPathC (l : node) (c : Nat) (q : List Char) :
    orEmpty (addPathC (orEmpty l) c q) = addPathC (orEmpty l) c q := by
  obtain ⟨v, a, b, h⟩ := orEmpty_is_mk l
  rw [h]
  obtain ⟨v', a', b', h'⟩ := addPathC_mk v a b c q
  rw [h']
  rfl

/-- Every annotated tree is an allocated node. -/
theorem ann_is_mk {T : node} {p : List Char} (h : AnnTree T p) :
    ∃ v a b, T = node.mk v a b := by
  cases h with
  | leaf it p hc hlt hcode hbits => exact ⟨_, _, _, rfl⟩
  | internal it l r p hc hl hr => exact ⟨_, _, _, rfl⟩

/-- Every annotated tree contributes at least one leaf path. -/
theorem leafPathsRel_ne_nil {T : node} {p : List Char} (h : AnnTree T p) :
    leafPathsRel T ≠ [] := by
  induction h with
  | leaf it p hc hlt hcode hbits => simp [leafPathsRel]
  | internal it l r p hc hl hr ihl ihr =>
    obtain ⟨vl, la, lb, hleq⟩ := ann_is_mk hl
    obtain ⟨vr, ra, rb, hreq⟩ := ann_is_mk hr
    subst hleq
    subst hreq
    simp only [leafPathsRel, ne_eq, List.append_eq_nil, List.map_eq_nil_iff, not_and]
    intro hfalse
    exact absurd hfalse ihl

/-- Inserting a batch of 0-prefixed paths into an allocated node only grows
the left subtree. -/
theorem foldl_addPathC_prefix0 (recs : List (Nat × List Char)) :
    recs ≠ [] → ∀ (w : Option lookupItem) (l r : node),
      (recs.map (fun cq => (cq.1, '0' :: cq.2))).foldl
          (fun t cq => addPathC t cq.1 cq.2) (node.mk w l r)
        = node.mk w (recs.foldl (fun t cq => addPathC t cq.1 cq.2) (orEmpty l)) r := by
  induction recs with
  | nil => intro h; exact absurd rfl h
  | cons cq recs ih =>
    intro _ w l r
    simp only [List.map_cons, List.foldl_cons]
    rw [addPathC, if_pos rfl]
    cases recs with
    | nil => simp
    | cons cq2 recs2 =>
      rw [ih (by simp) w (addPathC (orEmpty l) cq.1 cq.2) r]
      rw [orEmpty_addPathC]

/-- Inserting a batch of 1-prefixed paths into an allocated node only grows
the right subtree. -/
theorem foldl_addPathC_prefix1 (recs : List (Nat × List Char)) :
    recs ≠ [] → ∀ (w : Option lookupItem) (l r : node),
      (recs.map (fun cq => (cq.1, '1' :: cq.2))).foldl
          (fun t cq => addPathC t cq.1 cq.2) (node.mk w l r)
        = node.mk w l (recs.foldl (fun t cq => addPathC t cq.1 cq.2) (orEmpty r)) := by
  induction recs with
  | nil => intro h; exact absurd rfl h
  | cons cq recs ih =>
    intro _ w l r
    simp only [List.map_cons, List.foldl_cons]
    rw [addPathC, if_neg (by decide)]
    cases recs with
    | nil => simp
    | cons cq2 recs2 =>
      rw [ih (by simp) w l (addPathC (orEmpty r) cq.1 cq.2)]
      rw [orEmpty_addPathC]

/-- Inserting all relative leaf paths of an annotated tree into a fresh
empty root reconstructs the tree's skeleton. -/
theorem insertAll_skeleton {T : node} {p : List Char} (h : AnnTree T p) :
    (leafPathsRel T).foldl (fun t cq => addPathC t cq.1 cq.2) (node.mk none .nil .nil)
      = skeleton T := by
  induction h with
  | leaf it p hc hlt hcode hbits => rfl
  | internal it l r p hc hl hr ihl ihr =>
    obtain ⟨vl, la, lb, hleq⟩ := ann_is_mk hl
    obtain ⟨vr, ra, rb, hreq⟩ := ann_is_mk hr
    subst hleq
    subst hreq
    simp only [leafPathsRel, skeleton]
    rw [List.foldl_append]
    rw [foldl_addPathC_prefix0 _ (leafPathsRel_ne_nil hl) none .nil .nil]
    rw [foldl_addPathC_prefix1 _ (leafPathsRel_ne_nil hr) none _ .nil]
    rw [show orEmpty .nil = node.mk none .nil .nil from rfl]
    rw [ihl, ihr]

/-- The decoder-side assignment of the skeleton equals the encoder-side
record list. -/
theorem decAssign_skeleton {T : node} {p : List Char} (h : AnnTree T p) :
    decAssign (skeleton T) p = treeRecords T := by
  induction h with
  | leaf it p hc hlt hcode hbits =>
    rw [treeRecords_leaf it hc]
    simp [skeleton, decAssign, hcode, hbits]
  | internal it l r p hc hl hr ihl ihr =>
    obtain ⟨vl, la, lb, hleq⟩ := ann_is_mk hl
    obtain ⟨vr, ra, rb, hreq⟩ := ann_is_mk hr
    subst hleq
    subst hreq
    rw [treeRecords_internal it _ _ hc]
    simp only [skeleton, decAssign]
    rw [ihl, ihr]
    simp

/-- The serialised records are the relative leaf paths shifted by the
subtree's prefix. -/
theorem treeRecords_eq_rel {T : node} {p : List Char} (h : AnnTree T p) :
    treeRecords T
      = (leafPathsRel T).map (fun cq => (cq.1, p ++ cq.2, p.length + cq.2.length)) := by
  induction h with
  | leaf it p hc hlt hcode hbits =>
    rw [treeRecords_leaf it hc]
    simp [leafPathsRel, hcode, hbits]
  | internal it l r p hc hl hr ihl ihr =>
    obtain ⟨vl, la, lb, hleq⟩ := ann_is_mk hl
    obtain ⟨vr, ra, rb, hreq⟩ := ann_is_mk hr
    subst hleq
    subst hreq
    rw [treeRecords_internal it _ _ hc]
    simp only [leafPathsRel, List.map_append, List.map_map]
    rw [ihl, ihr]
    congr 1
    · refine congrArg (fun f => List.map f _) (funext fun cq => ?_)
      simp only [Function.comp_apply, List.append_assoc, List.singleton_append,
        List.length_append, List.length_cons, List.length_singleton, List.length_nil,
        Prod.mk.injEq]
      refine ⟨trivial, trivial, by omega⟩
    · refine congrArg (fun f => List.map f _) (funext fun cq => ?_)
      simp only [Function.comp_apply, List.append_assoc, List.singleton_append,
        List.length_append, List.length_cons, List.length_singleton, List.length_nil,
        Prod.mk.injEq]
      refine ⟨trivial, trivial, by omega⟩

/-! ### Heap bookkeeping: the merge loop yields one internal codebook tree -/

/-- Reading `getD` inside the bounds picks a member. -/
theorem getD_mem (pq : List node) (k : Nat) (hk : k < pq.length) : pq.getD k .nil ∈ pq := by
  rw [List.getD_eq_getElem _ _ hk]
  exact List.getElem_mem hk

/-- Swapping only permutes members. -/
theorem mem_pqSwap (pq : List node) (i j : Nat) (x : node) (hx : x ∈ pqSwap pq i j) :
    x ∈ pq := by
  unfold pqSwap at hx
  by_cases h : i < pq.length ∧ j < pq.length
  · rw [if_pos h] at hx
    rcases List.mem_or_eq_of_mem_set hx with hx | hx
    · rcases List.mem_or_eq_of_mem_set hx with hx | hx
      · exact hx
      · subst hx; exact getD_mem pq j h.2
    · subst hx; exact getD_mem pq i h.1
  · rw [if_neg h] at hx; exact hx

/-- Swapping preserves length. -/
theorem length_pqSwap (pq : List node) (i j : Nat) : (pqSwap pq i j).length = pq.length := by
  unfold pqSwap
  split
  · simp [List.length_set]
  · rfl

/-- Sifting down preserves length. -/
theorem length_heapDown : ∀ (fuel : Nat) (pq : List node) (i n : Nat),
    (heapDown fuel pq i n).length = pq.length := by
  intro fuel
  induction fuel with
  | zero => intro pq i n; rfl
  | succ fuel ih =>
    intro pq i n
    rw [heapDown]
    dsimp only
    repeat' split
    all_goals first | rfl | rw [ih, length_pqSwap]

/-- Sifting down only permutes members. -/
theorem mem_heapDown : ∀ (fuel : Nat) (pq : List node) (i n : Nat) (x : node),
    x ∈ heapDown fuel pq i n → x ∈ pq := by
  intro fuel
  induction fuel with
  | zero => intro pq i n x hx; exact hx
  | succ fuel ih =>
    intro pq i n x hx
    rw [heapDown] at hx
    dsimp only at hx
    repeat' split at hx
    all_goals first | exact hx | exact mem_pqSwap _ _ _ _ (ih _ _ _ _ hx)

/-- Sifting up preserves length. -/
theorem length_heapUp : ∀ (fuel : Nat) (pq : List node) (j : Nat),
    (heapUp fuel pq j).length = pq.length := by
  intro fuel
  induction fuel with
  | zero => intro pq j; rfl
  | succ fuel ih =>
    intro pq j
    rw [heapUp]
    split
    · rfl
    · rw [ih, length_pqSwap]

/-- Sifting up only permutes members. -/
theorem mem_heapUp : ∀ (fuel : Nat) (pq : List node) (j : Nat) (x : node),
    x ∈ heapUp fuel pq j → x ∈ pq := by
  intro fuel
  induction fuel with
  | zero => intro pq j x hx; exact hx
  | succ fuel ih =>
    intro pq j x hx
    rw [heapUp] at hx
    split at hx
    · exact hx
    · exact mem_pqSwap _ _ _ _ (ih _ _ _ hx)

/-- The init countdown preserves length. -/
theorem length_heapInitAux : ∀ (i : Nat) (pq : List node),
    (heapInitAux i pq).length = pq.length := by
  intro i
  induction i with
  | zero => intro pq; rfl
  | succ i ih =>
    intro pq
    rw [heapInitAux, ih, length_heapDown]

/-- The init countdown only permutes members. -/
theorem mem_heapInitAux : ∀ (i : Nat) (pq : List node) (x : node),
    x ∈ heapInitAux i pq → x ∈ pq := by
  intro i
  induction i with
  | zero => intro pq x hx; exact hx
  | succ i ih =>
    intro pq x hx
    rw [heapInitAux] at hx
    exact mem_heapDown _ _ _ _ _ (ih _ _ hx)

/-- Heap initialisation preserves length. -/
theorem length_heapInit (pq : List node) : (heapInit pq).length = pq.length :=
  length_heapInitAux _ pq

/-- Heap initialisation only permutes members. -/
theorem mem_heapInit (pq : List node) (x : node) (hx : x ∈ heapInit pq) : x ∈ pq :=
  mem_heapInitAux _ pq x hx

/-- The first pop result is a queue member. -/
theorem heapPop_fst_mem (pq : List node) (h : pq ≠ []) : (heapPop pq).1 ∈ pq := by
  unfold heapPop
  have hlen : (heapDown (pqSwap pq 0 (pq.length - 1)).length (pqSwap pq 0 (pq.length - 1)) 0
      (pq.length - 1)).length = pq.length := by
    rw [length_heapDown, length_pqSwap]
  refine mem_pqSwap pq 0 (pq.length - 1) _ (mem_heapDown _ _ _ _ _ (getD_mem _ _ ?_))
  rw [hlen]
  have : pq.length ≠ 0 := fun h0 => h (List.length_eq_zero.mp h0)
  omega

/-- The queue remaining after a pop only contains former members. -/
theorem heapPop_snd_mem (pq : List node) (x : node) (hx : x ∈ (heapPop pq).2) : x ∈ pq := by
  unfold heapPop at hx
  exact mem_pqSwap _ _ _ _ (mem_heapDown _ _ _ _ _ ((List.dropLast_sublist _).subset hx))

/-- A pop shortens the queue by one. -/
theorem length_heapPop_snd (pq : List node) : (heapPop pq).2.length = pq.length - 1 := by
  unfold heapPop
  rw [List.length_dropLast, length_heapDown, length_pqSwap]

/-- A push member is an old member or the pushed node. -/
theorem heapPush_mem (pq : List node) (y x : node) (hx : x ∈ heapPush pq y) :
    x ∈ pq ∨ x = y := by
  unfold heapPush at hx
  have := mem_heapUp _ _ _ _ hx
  rcases List.mem_append.mp this with h | h
  · exact Or.inl h
  · simp only [List.mem_singleton] at h
    exact Or.inr h

/-- A push lengthens the queue by one. -/
theorem length_heapPush (pq : List node) (y : node) :
    (heapPush pq y).length = pq.length + 1 := by
  unfold heapPush
  rw [length_heapUp]
  simp

/-- Merging two codebook trees yields an internal codebook tree. -/
theorem mergeStep_codebook (n1 n2 : node) (h1 : CodebookTree n1) (h2 : CodebookTree n2) :
    CodebookTree (mergeStep n1 n2) := by
  unfold mergeStep
  split
  · exact CodebookTree.internal _ _ _ rfl h2 h1
  · exact CodebookTree.internal _ _ _ rfl h1 h2

/-- The merge loop leaves a singleton queue untouched. -/
theorem mergeLoop_singleton (fuel : Nat) (x : node) : mergeLoop fuel [x] = [x] := by
  cases fuel <;> rfl

/-- The merge loop on a queue of at least two codebook trees terminates in
one internal codebook tree. -/
theorem mergeLoop_root : ∀ (fuel : Nat) (pq : List node),
    2 ≤ pq.length → pq.length ≤ fuel → (∀ x ∈ pq, CodebookTree x) →
    ∃ it l r, mergeLoop fuel pq = [node.mk (some it) l r] ∧ it.char = 0 ∧
      CodebookTree l ∧ CodebookTree r := by
  intro fuel
  induction fuel with
  | zero => intro pq h2 hf _; omega
  | succ fuel ih =>
    intro pq h2 hf hall
    rw [mergeLoop, if_pos (by omega)]
    dsimp only
    have hne : pq ≠ [] := by
      intro h
      rw [h] at h2
      simp at h2
    have hc1 : CodebookTree (heapPop pq).1 := hall _ (heapPop_fst_mem pq hne)
    have hlen1 : (heapPop pq).2.length = pq.length - 1 := length_heapPop_snd pq
    have hne2 : (heapPop pq).2 ≠ [] := by
      intro h
      rw [h] at hlen1
      simp only [List.length_nil] at hlen1
      omega
    have hc2 : CodebookTree (heapPop (heapPop pq).2).1 :=
      hall _ (heapPop_snd_mem pq _ (heapPop_fst_mem _ hne2))
    have hlen2 : (heapPop (heapPop pq).2).2.length = pq.length - 2 := by
      rw [length_heapPop_snd, hlen1]
      omega
    have hmerged : CodebookTree (mergeStep (heapPop pq).1 (heapPop (heapPop pq).2).1) :=
      mergeStep_codebook _ _ hc1 hc2
    have hallpush : ∀ x ∈ heapPush (heapPop (heapPop pq).2).2
        (mergeStep (heapPop pq).1 (heapPop (heapPop pq).2).1), CodebookTree x := by
      intro x hx
      rcases heapPush_mem _ _ _ hx with hx | hx
      · exact hall _ (heapPop_snd_mem _ _ (heapPop_snd_mem _ _ hx))
      · subst hx; exact hmerged
    have hlenpush : (heapPush (heapPop (heapPop pq).2).2
        (mergeStep (heapPop pq).1 (heapPop (heapPop pq).2).1)).length = pq.length - 1 := by
      rw [length_heapPush, hlen2]
      omega
    by_cases hck : pq.length = 2
    · have h1 : (heapPush (heapPop (heapPop pq).2).2
          (mergeStep (heapPop pq).1 (heapPop (heapPop pq).2).1)).length = 1 := by omega
      obtain ⟨y, hy⟩ := List.length_eq_one.mp h1
      rw [hy, mergeLoop_singleton]
      have hymem : y ∈ heapPush (heapPop (heapPop pq).2).2
          (mergeStep (heapPop pq).1 (heapPop (heapPop pq).2).1) := by
        rw [hy]
        simp
      rcases heapPush_mem _ _ _ hymem with hmem | hmem
      · have hpq2 : (heapPop (heapPop pq).2).2 = [] := List.length_eq_zero.mp (by omega)
        rw [hpq2] at hmem
        simp at hmem
      · subst hmem
        unfold mergeStep
        split
        · exact ⟨_, _, _, rfl, rfl, hc2, hc1⟩
        · exact ⟨_, _, _, rfl, rfl, hc1, hc2⟩
    · exact ih _ (by omega) (by omega) hallpush

/-- Assigning codes to an internal codebook root succeeds and annotates the
two subtrees below the paths `0` and `1`. -/
theorem buildHuffmanTree_ann_internal (it : lookupItem) (l r : node) (hc : it.char = 0)
    (hl : CodebookTree l) (hr : CodebookTree r) :
    ∃ l' r', buildHuffmanTree (node.mk (some it) l r) [] 0
        = some (node.mk (some it) l' r') ∧ AnnTree l' ['0'] ∧ AnnTree r' ['1'] := by
  obtain ⟨l', hl', al⟩ := buildHuffmanTree_ann hl ['0']
  obtain ⟨r', hr', ar⟩ := buildHuffmanTree_ann hr ['1']
  have hl'' : buildHuffmanTree l ['0'] 1 = some l' := hl'
  have hr'' : buildHuffmanTree r ['1'] 1 = some r' := hr'
  refine ⟨l', r', ?_, al, ar⟩
  rw [buildHuffmanTree, if_neg (by simp [hc])]
  simp only [List.nil_append, Nat.zero_add]
  rw [hl'']
  simp only [Option.pure_def, Option.bind_eq_bind, Option.some_bind]
  rw [hr'']
  simp only [Option.some_bind]

/-- The codebook pipeline on at least two sentinel-free uint32 entries
yields an annotated tree with an internal root. -/
theorem buildCodebookTree_ann (ord : List (Nat × Nat)) (T : node)
    (hbuild : buildCodebookTree ord = some T)
    (hge2 : 2 ≤ ord.length)
    (hchars : ∀ kv ∈ ord, kv.1 ≠ 0 ∧ kv.1 < 4294967296) :
    ∃ it l' r', T = node.mk (some it) l' r' ∧ it.char = 0 ∧
      AnnTree l' ['0'] ∧ AnnTree r' ['1'] ∧ AnnTree T [] := by
  have hlen : (heapInit (initialQueue ord)).length = ord.length := by
    rw [length_heapInit]
    simp [initialQueue]
  have hall : ∀ x ∈ heapInit (initialQueue ord), CodebookTree x := by
    intro x hx
    have hmem := mem_heapInit _ _ hx
    simp only [initialQueue, List.mem_map] at hmem
    obtain ⟨kv, hkv, heq⟩ := hmem
    subst heq
    exact CodebookTree.leaf _ (hchars kv hkv).1 (hchars kv hkv).2
  obtain ⟨it, l, r, hmq, hc0, hcl, hcr⟩ :=
    mergeLoop_root (heapInit (initialQueue ord)).length (heapInit (initialQueue ord))
      (by omega) (Nat.le_refl _) hall
  have hmq' : mergedQueue ord = [node.mk (some it) l r] := hmq
  rw [buildCodebookTree, hmq'] at hbuild
  simp only [List.get?_cons_zero, Option.pure_def, Option.bind_eq_bind, Option.some_bind]
    at hbuild
  obtain ⟨l', r', hb, al, ar⟩ := buildHuffmanTree_ann_internal it l r hc0 hcl hcr
  rw [hb] at hbuild
  simp only [Option.some_inj] at hbuild
  subst hbuild
  exact ⟨it, l', r', rfl, hc0, al, ar, AnnTree.internal it l' r' [] hc0 al ar⟩

/-- C5 (amended): for every tree `T` that `build_codebook` produces from a
frequency map with at least two distinct symbols, all non-zero uint32
scalars, and every code at most 32 bits long, parsing the serialised
header with the tree-rebuilding routine yields a decoding tree that
assigns to each symbol exactly the same `(code, bit_length)` pair as `T`
(the full record lists coincide). -/
theorem header_roundtrip (ord : List (Nat × Nat)) (T : node)
    (hbuild : buildCodebookTree ord = some T)
    (hge2 : 2 ≤ ord.length)
    (hchars : ∀ kv ∈ ord, kv.1 ≠ 0 ∧ kv.1 < 4294967296)
    (hdepth : ∀ rec ∈ treeRecords T, rec.2.2 ≤ 32) :
    (buildHeader T).bind
        (fun hd => (buildTreeFromHeader hd).map (fun reb => decAssign reb []))
      = some (treeRecords T) := by
  obtain ⟨it, l', r', hshape, hc0, al, ar, hannT⟩ :=
    buildCodebookTree_ann ord T hbuild hge2 hchars
  subst hshape
  have hbin0 : isBin ['0'] := by
    intro c hc
    simp only [List.mem_singleton] at hc
    subst hc
    exact Or.inl rfl
  have hbin1 : isBin ['1'] := by
    intro c hc
    simp only [List.mem_singleton] at hc
    subst hc
    exact Or.inr rfl
  have hrecT : treeRecords (node.mk (some it) l' r') = treeRecords l' ++ treeRecords r' :=
    treeRecords_internal it _ _ hc0
  have hwfl := treeRecords_wf al hbin0 (by simp)
  have hwfr := treeRecords_wf ar hbin1 (by simp)
  have hwfT : ∀ rec ∈ treeRecords (node.mk (some it) l' r'),
      isBin rec.2.1 ∧ rec.2.1 ≠ [] ∧ rec.2.2 = rec.2.1.length ∧ rec.1 < 4294967296 := by
    intro rec hrec
    rw [hrecT] at hrec
    rcases List.mem_append.mp hrec with hrec | hrec
    · exact hwfl rec hrec
    · exact hwfr rec hrec
  have hdl : ∀ rec ∈ treeRecords l', rec.2.2 ≤ 32 := by
    intro rec hrec
    exact hdepth rec (by rw [hrecT]; exact List.mem_append_left _ hrec)
  have hdr : ∀ rec ∈ treeRecords r', rec.2.2 ≤ 32 := by
    intro rec hrec
    exact hdepth rec (by rw [hrecT]; exact List.mem_append_right _ hrec)
  have hheader : buildHeader (node.mk (some it) l' r')
      = some ((treeRecords (node.mk (some it) l' r')).flatMap encode9) := by
    rw [buildHeader, buildHeaderRecursive, if_neg (by simp [hc0])]
    simp only [Option.pure_def, Option.bind_eq_bind, Option.some_bind]
    rw [buildHeader_ann al hbin0 (by simp) hdl]
    simp only [Option.some_bind]
    rw [buildHeader_ann ar hbin1 (by simp) hdr]
    simp only [Option.some_bind]
    rw [hrecT, List.flatMap_append]
    simp
  rw [hheader]
  simp only [Option.some_bind]
  have hwfparse : ∀ rec ∈ treeRecords (node.mk (some it) l' r'),
      rec.1 < 4294967296 ∧ rec.2.2 ≤ 32 ∧ binVal rec.2.1 < 4294967296 := by
    intro rec hrec
    obtain ⟨hbinr, _, hlenr, hcharr⟩ := hwfT rec hrec
    refine ⟨hcharr, hdepth rec hrec, ?_⟩
    have h1 := binVal_lt rec.2.1
    have h2 : (2 : Nat) ^ rec.2.1.length ≤ 2 ^ 32 := by
      apply Nat.pow_le_pow_right (by norm_num)
      rw [← hlenr]
      exact hdepth rec hrec
    have h3 : (2 : Nat) ^ 32 = 4294967296 := by norm_num
    omega
  have hparse : buildTreeFromHeader ((treeRecords (node.mk (some it) l' r')).flatMap encode9)
      = some ((treeRecords (node.mk (some it) l' r')).foldl
          (fun t rec => addNode t rec.1 (binVal rec.2.1) rec.2.2) (node.mk none .nil .nil)) := by
    rw [buildTreeFromHeader, parseHeaderTree]
    exact parseHeaderTreeAux_flatMap _ _ _ (Nat.le_refl _) hwfparse
  rw [hparse]
  simp only [Option.map_some']
  have hext : (treeRecords (node.mk (some it) l' r')).foldl
        (fun t rec => addNode t rec.1 (binVal rec.2.1) rec.2.2) (node.mk none .nil .nil)
      = (treeRecords (node.mk (some it) l' r')).foldl
        (fun t rec => addPathC t rec.1 rec.2.1) (node.mk none .nil .nil) := by
    apply List.foldl_ext
    intro t rec hrec
    obtain ⟨hbinr, _, hlenr, _⟩ := hwfT rec hrec
    rw [hlenr]
    exact addNode_eq_addPathC rec.2.1 t rec.1 (binVal rec.2.1) hbinr (fun k _ => rfl)
  have hfold : (treeRecords (node.mk (some it) l' r')).foldl
        (fun t rec => addPathC t rec.1 rec.2.1) (node.mk none .nil .nil)
      = skeleton (node.mk (some it) l' r') := by
    rw [treeRecords_eq_rel hannT, List.foldl_map]
    simp only [List.nil_append]
    exact insertAll_skeleton hannT
  rw [hext, hfold, decAssign_skeleton hannT]

/-- Witness for the amended C5 at the frequency map `{97 ↦ 1, 98 ↦ 2,
99 ↦ 4}`. -/
theorem header_roundtrip_witness :
    (buildHeader C5tree).bind
        (fun hd => (buildTreeFromHeader hd).map (fun reb => decAssign reb []))
      = some (treeRecords C5tree) :=
  header_roundtrip C5ord C5tree (by decide) (by decide) (by decide) (by decide)

/-! ### C10 -/

/-- C10 counterexample: two iteration orders of the same frequency map of
the same text (all symbol frequencies equal) both compress successfully but
produce different containers, so the output does depend on the order in
which equal-frequency entries enter the priority queue. -/
theorem compress_order_dependent_cex :
    ordA.Perm ordB ∧
    (CompressWithOrder tieText ordA).isSome = true ∧
    (CompressWithOrder tieText ordB).isSome = true ∧
    CompressWithOrder tieText ordA ≠ CompressWithOrder tieText ordB := by decide

/-- C10 (amended): the container is a function of the input text and the
frequency-map iteration order alone — two runs that insert the map's
entries into the priority queue in the same order produce byte-identical
containers. -/
theorem compress_same_order_deterministic (text : List Nat) (ord1 ord2 : List (Nat × Nat))
    (h : ord1 = ord2) : CompressWithOrder text ord1 = CompressWithOrder text ord2 :=
  congrArg (CompressWithOrder text) h

/-- Witness for the amended C10 at a concrete text and order. -/
theorem compress_same_order_deterministic_witness :
    CompressWithOrder tieText ordA = CompressWithOrder tieText ordA :=
  compress_same_order_deterministic tieText ordA ordA rfl

end Compression
